import Mathlib

/-!
Verification of the Randonia archive's core logic: the paragraph-aware text
paginator, the genre tag extractor/classifier, the client-side filter/sort
pipeline, the favorites toggle, and the soft session-expiry check.  Strings
are modelled as `List Char`; the JavaScript string operations used by the
source (`trim`, `split(/\n{2,}/)`, `split(/\s+/)`, `toLowerCase`,
`includes`, the genre-tag regex `replace`/`match`) are embedded as
executable functions below.
-/

/-- The set of characters the source's regexes treat as whitespace (`\s`,
`trim`): space, tab, newline, carriage return, vertical tab, form feed. -/
def isWs (c : Char) : Bool :=
  c = ' ' || c = '\t' || c = '\n' || c = '\r' || c.toNat = 11 || c.toNat = 12

/-- Embeds `String.prototype.trimStart`. -/
def trimStart (cs : List Char) : List Char := cs.dropWhile isWs

/-- Embeds `String.prototype.trimEnd`. -/
def trimEnd (cs : List Char) : List Char := (cs.reverse.dropWhile isWs).reverse

/-- Embeds `String.prototype.trim` (both ends). -/
def trimList (cs : List Char) : List Char := trimStart (trimEnd cs)

/-- Shorthand: the character list of a string literal. -/
def sl (s : String) : List Char := s.toList

/-- State machine for `content.split(/\n{2,}/)`: `curr` is the piece being
built (reversed), `run` counts the pending consecutive newlines.  A run of
two or more newlines is a separator; a lone newline stays in the piece. -/
def paraSplitGo (curr : List Char) (run : Nat) : List Char → List (List Char)
  | [] =>
    if 2 ≤ run then [curr.reverse, []]
    else (List.replicate run '\n' ++ curr).reverse :: []
  | c :: rest =>
    if c = '\n' then paraSplitGo curr (run + 1) rest
    else if 2 ≤ run then curr.reverse :: paraSplitGo [c] 0 rest
    else paraSplitGo (c :: (List.replicate run '\n' ++ curr)) 0 rest

/-- Embeds `text.split(/\n{2,}/)` from the paginator. -/
def splitParasList (cs : List Char) : List (List Char) := paraSplitGo [] 0 cs

/-- State machine for `p.split(/\s+/)`: `curr` is the piece being built
(reversed); `inSep` records that a whitespace run is pending, so JS's
leading/trailing empty pieces are produced faithfully. -/
def wordSplitGo (curr : List Char) (inSep : Bool) : List Char → List (List Char)
  | [] => if inSep then [curr.reverse, []] else [curr.reverse]
  | c :: rest =>
    if isWs c then wordSplitGo curr true rest
    else if inSep then curr.reverse :: wordSplitGo [c] false rest
    else wordSplitGo (c :: curr) false rest

/-- Embeds `p.split(/\s+/)` from the paginator's word-boundary fallback. -/
def splitWsList (cs : List Char) : List (List Char) := wordSplitGo [] false cs

/-- The paragraph separator `"\n\n"` reinserted between joined paragraphs. -/
def nl2 : List Char := ['\n', '\n']

/-- The inner word loop of `paginate`: greedily appends words to `chunk`
(with a single space), emitting the chunk as a page when the next word
would overflow the budget.  Returns the emitted pages and the final chunk. -/
def wordLoop (n : Nat) : List (List Char) → List Char → List (List Char) × List Char
  | [], chunk => ([], chunk)
  | w :: ws, chunk =>
    let next := if chunk.isEmpty then w else chunk ++ ' ' :: w
    if n < next.length then
      let r := wordLoop n ws w
      ((if chunk.isEmpty then r.1 else chunk :: r.1), r.2)
    else
      wordLoop n ws next

/-- One iteration of `paginate`'s paragraph loop: given the running page
`current` and the next paragraph `p`, returns the pages emitted during this
iteration and the new `current`. -/
def paraStep (n : Nat) (current : List Char) (p : List Char) :
    List (List Char) × List Char :=
  let joined := if current.isEmpty then p else current ++ nl2 ++ p
  if joined.length ≤ n then ([], joined)
  else
    let emitted := if current.isEmpty then [] else [current]
    if p.length ≤ n then (emitted, p)
    else
      -- paragraph is too long: split by words without breaking
      let cur1 : List Char := []   -- `current` was flushed above
      let wr := wordLoop n (splitWsList p) []
      if wr.2.isEmpty then (emitted ++ wr.1, cur1)
      else (emitted ++ wr.1 ++ (if cur1.isEmpty then [] else [cur1]), wr.2)

/-- The paragraph loop of `paginate`, with the trailing
`if (current) pages.push(current)`. -/
def paraLoop (n : Nat) : List (List Char) → List Char → List (List Char)
  | [], current => if current.isEmpty then [] else [current]
  | p :: ps, current =>
    let r := paraStep n current p
    r.1 ++ paraLoop n ps r.2

/-- Embeds `paginate(content, approxCharsPerPage)` from `Archive.tsx`. -/
def paginate (content : List Char) (n : Nat) : List (List Char) :=
  let text := trimList content
  if text.isEmpty then [[]]
  else
    let pages := paraLoop n (splitParasList text) []
    if pages.isEmpty then [text] else pages

/-- The function `paginate` at its default budget of 1400 characters per page. -/
def paginateDefault (content : List Char) : List (List Char) := paginate content 1400

/-- A 1400-character word (no whitespace). -/
def w1400 : List Char := List.replicate 1400 'a'

/-- A 198-character word (no whitespace). -/
def w198 : List Char := List.replicate 198 'a'

/-- A 3000-character single-paragraph string made of three space-separated
word blocks of 1400, 1400 and 198 characters. -/
def threePage : List Char := w1400 ++ (' ' :: (w1400 ++ (' ' :: w198)))

/-- A 3000-character single-paragraph string that is one single word. -/
def bigWord : List Char := List.replicate 3000 'a'

/-- Concatenation of pages with a single space reinserted between them. -/
def joinWithSpace : List (List Char) → List Char
  | [] => []
  | [p] => p
  | p :: ps => p ++ ' ' :: joinWithSpace ps

/-- The fixed genre enumeration `GENRES` from `Archive.tsx` (the wildcard
`All` is a UI filter value, never produced by the classifier). -/
inductive Genre
  | All | Adventure | Fantasy | History | Science | Mystery | Horror
  | Poetry | Biography | Misc
deriving DecidableEq, Repr

/-- The display name of each genre, as it appears in `GENRES`. -/
def genreName : Genre → List Char
  | .All => sl "All"
  | .Adventure => sl "Adventure"
  | .Fantasy => sl "Fantasy"
  | .History => sl "History"
  | .Science => sl "Science"
  | .Mystery => sl "Mystery"
  | .Horror => sl "Horror"
  | .Poetry => sl "Poetry"
  | .Biography => sl "Biography"
  | .Misc => sl "Misc"

/-- The `GENRES` array, in source order. -/
def GENRES : List Genre :=
  [.All, .Adventure, .Fantasy, .History, .Science, .Mystery, .Horror,
   .Poetry, .Biography, .Misc]

/-- The literal part of `GENRE_TAG_REGEX`, lower-cased: `[genre:`. -/
def tagLit : List Char := sl "[genre:"

/-- Case-insensitive literal prefix match: returns the input after the
pattern when the (lower-case) pattern matches case-insensitively. -/
def matchPrefixCI : List Char → List Char → Option (List Char)
  | [], cs => some cs
  | _ :: _, [] => none
  | p :: ps, c :: cs => if c.toLower = p then matchPrefixCI ps cs else none

/-- Attempt to match `GENRE_TAG_REGEX` (`/\[genre:\s*([a-zA-Z]+)\]/i`) at
the head of the input.  The character classes `\s` and `[a-zA-Z]` and the
literals are pairwise disjoint, so the greedy match is deterministic.
Returns the captured letters and the input after the whole match. -/
def tagMatchAt (cs : List Char) : Option (List Char × List Char) :=
  match matchPrefixCI tagLit cs with
  | none => none
  | some r1 =>
    let r2 := r1.dropWhile isWs
    let letters := r2.takeWhile Char.isAlpha
    match r2.dropWhile Char.isAlpha with
    | ']' :: r3 => if letters.isEmpty then none else some (letters, r3)
    | _ => none

/-- Embeds `text.replace(GENRE_TAG_REGEX, "")`: removes the leftmost tag match. -/
def replaceFirstTag : List Char → List Char
  | [] => []
  | c :: cs =>
    match tagMatchAt (c :: cs) with
    | some (_, r) => r
    | none => c :: replaceFirstTag cs

/-- Embeds `text.match(GENRE_TAG_REGEX)`: the captured group of the leftmost tag
match, if any. -/
def findFirstTag : List Char → Option (List Char)
  | [] => none
  | c :: cs =>
    match tagMatchAt (c :: cs) with
    | some (letters, _) => some letters
    | none => findFirstTag cs

/-- Embeds `text.replace(/^\s*\n/, "")`: removes the longest whitespace prefix
that ends with a newline (a no-op when the whitespace prefix has none). -/
def stripLeadWsNl (cs : List Char) : List Char :=
  let w := cs.takeWhile isWs
  if w.contains '\n' then
    (w.reverse.takeWhile (fun c => ¬ c = '\n')).reverse ++ cs.dropWhile isWs
  else cs

/-- Embeds `stripGenreTag` from `Archive.tsx`. -/
def stripGenreTag (text : List Char) : List Char :=
  trimStart (stripLeadWsNl (replaceFirstTag text))

/-- Embeds `extractGenreFromText` from `Archive.tsx`: the first tag's word must
case-insensitively match an enumerated genre, and `All` is rejected. -/
def extractGenreFromText (text : List Char) : Option Genre :=
  match findFirstTag text with
  | none => none
  | some letters =>
    match GENRES.find? (fun g => (genreName g).map Char.toLower == letters.map Char.toLower) with
    | some g => if g = Genre.All then none else some g
    | none => none

/-- Embeds `applyGenreTag` from `Archive.tsx`: strips any existing tag, prefixes
the new tag (none for `Misc`), and trims trailing whitespace. -/
def applyGenreTag (summary : List Char) (genre : Genre) : List Char :=
  let clean := stripGenreTag summary
  let tag :=
    if genre = Genre.Misc then []
    else sl "[genre: " ++ genreName genre ++ sl "]\n"
  trimEnd (tag ++ clean)

/-- Holds when the first list is a prefix of the second (helper for the
embedding of `String.prototype.includes`). -/
def leadsWith : List Char → List Char → Bool
  | [], _ => true
  | _ :: _, [] => false
  | a :: as, b :: bs => a = b && leadsWith as bs

/-- Embeds `hay.includes(needle)` (note the argument order: needle first). -/
def hasSubstr (needle : List Char) : List Char → Bool
  | [] => leadsWith needle []
  | c :: t => leadsWith needle (c :: t) || hasSubstr needle t

/-- Embeds `deriveGenre` from `Archive.tsx`: inline tag from the summary, then
from the content, then the fixed keyword priority chain, else `Misc`. -/
def deriveGenre (summary content : List Char) : Genre :=
  match extractGenreFromText summary with
  | some g => g
  | none =>
    match extractGenreFromText content with
    | some g => g
    | none =>
      let source := (summary ++ '\n' :: content).map Char.toLower
      if hasSubstr (sl "adventure") source then .Adventure
      else if hasSubstr (sl "fantasy") source then .Fantasy
      else if hasSubstr (sl "history") source then .History
      else if hasSubstr (sl "science") source then .Science
      else if hasSubstr (sl "mystery") source then .Mystery
      else if hasSubstr (sl "horror") source then .Horror
      else if hasSubstr (sl "poem") source || hasSubstr (sl "poetry") source then .Poetry
      else if hasSubstr (sl "biography") source || hasSubstr (sl "memoir") source then .Biography
      else .Misc

/-- The `Book` record from `Archive.tsx` (fields relevant to the claims). -/
structure Book where
  id : Nat
  name : List Char
  author : List Char
  summary : List Char
  content_md : List Char
  created_at : List Char
deriving DecidableEq, Repr

/-- The keyword-priority fallback of the classifier, written from the
spec's own description of step 3 (adventure → fantasy → history → science
→ mystery → horror → poem/poetry → biography/memoir, else the catch-all). -/
def keywordClassifySpec (source : List Char) : Genre :=
  if hasSubstr (sl "adventure") source then .Adventure
  else if hasSubstr (sl "fantasy") source then .Fantasy
  else if hasSubstr (sl "history") source then .History
  else if hasSubstr (sl "science") source then .Science
  else if hasSubstr (sl "mystery") source then .Mystery
  else if hasSubstr (sl "horror") source then .Horror
  else if hasSubstr (sl "poem") source || hasSubstr (sl "poetry") source then .Poetry
  else if hasSubstr (sl "biography") source || hasSubstr (sl "memoir") source then .Biography
  else .Misc

/-- The search haystack of `filteredBooks`:
`` `${b.name}\n${b.author}\n${b.summary}\n${b.content_md}`.toLowerCase() ``. -/
def bookHay (b : Book) : List Char :=
  (b.name ++ '\n' :: (b.author ++ '\n' :: (b.summary ++ '\n' :: b.content_md))).map Char.toLower

/-- The filter predicate of `filteredBooks` in `Archive.tsx`, with the
trimmed lower-cased query `q` precomputed as in the source. -/
def keepBook (onlyFavorites : Bool) (favorites : List Nat) (selectedGenre : Genre)
    (q : List Char) (b : Book) : Bool :=
  if onlyFavorites && !(favorites.contains b.id) then false
  else
    let genreOk := decide (selectedGenre = Genre.All)
      || decide (deriveGenre b.summary b.content_md = selectedGenre)
    if q.isEmpty then genreOk
    else genreOk && hasSubstr q (bookHay b)

/-- Embeds `filteredBooks` from `Archive.tsx`:
`q = debouncedQuery.trim().toLowerCase()` followed by the filter. -/
def filteredBooks (books : List Book) (favorites : List Nat) (onlyFavorites : Bool)
    (selectedGenre : Genre) (debouncedQuery : List Char) : List Book :=
  let q := trimList (debouncedQuery.map Char.toLower)
  books.filter (keepBook onlyFavorites favorites selectedGenre q)

/-- The filter predicate as the claim words it: the *untrimmed* query must
be empty for the text filter to be skipped.  Used to compare the claim's
wording against the source's behavior. -/
def keepBookClaim (onlyFavorites : Bool) (favorites : List Nat) (selectedGenre : Genre)
    (debouncedQuery : List Char) (b : Book) : Bool :=
  (!onlyFavorites || favorites.contains b.id)
    && (decide (selectedGenre = Genre.All)
        || decide (deriveGenre b.summary b.content_md = selectedGenre))
    && (debouncedQuery.isEmpty || hasSubstr (debouncedQuery.map Char.toLower) (bookHay b))

/-- Stable insertion of `a` before the first element `b` with `le a b`;
models one step of JavaScript's (ES2019+, stable) `Array.prototype.sort`
with comparator `cmp` where `le a b ↔ cmp(a,b) ≤ 0`. -/
def insertLe (le : Book → Book → Bool) (a : Book) : List Book → List Book
  | [] => [a]
  | b :: l => if le a b then a :: b :: l else b :: insertLe le a l

/-- Stable sort by `le` (insertion sort, stable like the JS engine sort). -/
def sortLe (le : Book → Book → Bool) : List Book → List Book
  | [] => []
  | a :: l => insertLe le a (sortLe le l)

/-- Codepoint-lexicographic `≤` on character lists: the embedding of the
source's `localeCompare`-based comparators (`cmp(a,b) ≤ 0`). -/
def lexLe : List Char → List Char → Bool
  | [], _ => true
  | _ :: _, [] => false
  | a :: as, b :: bs => if a = b then lexLe as bs else decide (a < b)

/-- The sort keys of `formattedBooks` (`recent` is the default). -/
inductive SortKey
  | recent | title | author
deriving DecidableEq, Repr

/-- The per-key comparator of `formattedBooks`: title/author ascending,
`created_at` descending (arguments flipped in the source comparator). -/
def keyLe : SortKey → Book → Book → Bool
  | .title, a, b => lexLe a.name b.name
  | .author, a, b => lexLe a.author b.author
  | .recent, a, b => lexLe b.created_at a.created_at

/-- The favorites-pinning comparator of `formattedBooks`:
`Number(favorites.has(b.id)) - Number(favorites.has(a.id)) ≤ 0`. -/
def favLe (favorites : List Nat) (a b : Book) : Bool :=
  decide ((if favorites.contains b.id then (1 : Nat) else 0)
    ≤ (if favorites.contains a.id then (1 : Nat) else 0))

/-- Embeds `formattedBooks` from `Archive.tsx`: sort the filtered list by the
chosen key, then re-sort stably so favorites are pinned on top. -/
def formattedBooks (favorites : List Nat) (k : SortKey) (filtered : List Book) :
    List Book :=
  sortLe (favLe favorites) (sortLe (keyLe k) filtered)

/-- The pure favorites update of `toggleFavorite`: delete the id if
present, otherwise add it (JS `Set` insertion order = append). -/
def toggleFavorite (id : Nat) (favorites : List Nat) : List Nat :=
  if favorites.contains id then favorites.erase id else favorites ++ [id]

/-- Client favorites state: the in-memory set and the browser-storage copy
(`localStorage["favorites"]`, `none` when the key is absent). -/
structure FavState where
  favorites : List Nat
  storage : Option (List Nat)
deriving DecidableEq, Repr

/-- Embeds `toggleFavorite` including the `localStorage.setItem` write of the
JSON array of the resulting set. -/
def toggleFavoriteState (id : Nat) (st : FavState) : FavState :=
  let next := toggleFavorite id st.favorites
  ⟨next, some next⟩

/-- Embeds `SESSION_MAX_MS = 1000 * 60 * 60 * 24 * 3` from the auth context. -/
def SESSION_MAX_MS : Int := 1000 * 60 * 60 * 24 * 3

/-- The result of `enforceExpiry`: the (possibly cleared) user and stored
timestamp, and the delay of the scheduled sign-out timer, if one is set. -/
structure ExpiryResult where
  user : Option Nat
  storedTs : Option Int
  timerDelay : Option Int
deriving DecidableEq, Repr

/-- Embeds `enforceExpiry(loginAtMs?)` from the auth context: `last` falls back
from the argument to the stored timestamp (0 when absent); a non-zero
`last` older than `SESSION_MAX_MS` signs out immediately, a younger one
schedules a sign-out after the remaining time (clamped at 0). -/
def enforceExpiry (now : Int) (loginAtMs : Option Int) (storedTs : Option Int)
    (user : Option Nat) : ExpiryResult :=
  let last : Int :=
    match loginAtMs with
    | some v => v
    | none => storedTs.getD 0
  if last ≠ 0 ∧ now - last > SESSION_MAX_MS then
    { user := none, storedTs := none, timerDelay := none }
  else if last ≠ 0 then
    { user := user, storedTs := storedTs, timerDelay := some (max (SESSION_MAX_MS - (now - last)) 0) }
  else
    { user := user, storedTs := storedTs, timerDelay := none }

/-- C8: for empty content, `paginate` returns exactly `[""]` — a
one-element sequence containing the empty string — at every budget. -/
theorem paginate_empty_gives_single_empty_page : ∀ n : Nat, paginate [] n = [[]] := by
  intro n
  rfl

/-- C4 (amended): when the first recognized inline tag of the summary is
`[genre: Horror]` (`extractGenreFromText` returns `Horror`), `deriveGenre`
returns `Horror` regardless of the content — the tag wins over keywords. -/
theorem deriveGenre_summary_tag_wins (summary content : List Char)
    (h : extractGenreFromText summary = some Genre.Horror) :
    deriveGenre summary content = Genre.Horror := by
  unfold deriveGenre
  rw [h]

/-- C4 witness: a summary whose sole tag is `[genre: Horror]` with content
containing the keyword "fantasy" classifies as Horror. -/
theorem deriveGenre_summary_tag_wins_witness :
    deriveGenre (sl "[genre: Horror]") (sl "a fantasy tale") = Genre.Horror :=
  deriveGenre_summary_tag_wins _ _ (by decide)

/-- C4 counterexample: a summary *containing* `[genre: Horror]` need not
classify as Horror — an earlier tag is matched first, so for the summary
`[genre: Fantasy][genre: Horror]` with content containing "fantasy" the
classifier returns Fantasy, refuting the claim as stated. -/
theorem deriveGenre_summary_contains_tag_cx :
    hasSubstr (sl "[genre: Horror]") (sl "[genre: Fantasy][genre: Horror]") = true
    ∧ hasSubstr (sl "fantasy") (sl "a fantasy tale") = true
    ∧ deriveGenre (sl "[genre: Fantasy][genre: Horror]") (sl "a fantasy tale") = Genre.Fantasy
    ∧ Genre.Fantasy ≠ Genre.Horror := by
  decide

/-- C7: when neither summary nor content carries a recognized inline tag,
`deriveGenre` equals the spec's keyword-priority classifier applied to the
lower-cased concatenation of summary and content (adventure → fantasy →
history → science → mystery → horror → poem/poetry → biography/memoir,
else the catch-all `Misc`). -/
theorem deriveGenre_keyword_fallback (summary content : List Char)
    (h1 : extractGenreFromText summary = none)
    (h2 : extractGenreFromText content = none) :
    deriveGenre summary content
      = keywordClassifySpec ((summary ++ '\n' :: content).map Char.toLower) := by
  unfold deriveGenre keywordClassifySpec
  rw [h1, h2]

/-- C7 witness: an untagged, keyword-free document follows the keyword
chain and lands on `Misc`. -/
theorem deriveGenre_keyword_fallback_witness :
    deriveGenre (sl "hello") (sl "world")
      = keywordClassifySpec ((sl "hello" ++ '\n' :: sl "world").map Char.toLower)
    ∧ deriveGenre (sl "hello") (sl "world") = Genre.Misc :=
  ⟨deriveGenre_keyword_fallback _ _ (by decide) (by decide), by decide⟩

/-- C9: with a stored session-start timestamp older than `SESSION_MAX_MS`
(3 days), `enforceExpiry` signs the user out (user `none`, stored
timestamp removed, no timer); with a younger timestamp it keeps the user
and schedules a sign-out after exactly the remaining time, which elapses
precisely `SESSION_MAX_MS` after the login timestamp. -/
theorem enforceExpiry_expiry_behavior (ts now : Int) (user : Option Nat)
    (hts : 0 < ts) :
    (now - ts > SESSION_MAX_MS →
      enforceExpiry now none (some ts) user
        = { user := none, storedTs := none, timerDelay := none })
    ∧ (now - ts ≤ SESSION_MAX_MS →
      enforceExpiry now none (some ts) user
        = { user := user, storedTs := some ts,
            timerDelay := some (SESSION_MAX_MS - (now - ts)) }
      ∧ now + (SESSION_MAX_MS - (now - ts)) = ts + SESSION_MAX_MS) := by
  have hne : ts ≠ 0 := by omega
  constructor
  · intro hold
    unfold enforceExpiry
    simp only [Option.getD_some]
    rw [if_pos ⟨hne, hold⟩]
  · intro hyoung
    constructor
    · unfold enforceExpiry
      simp only [Option.getD_some]
      rw [if_neg (by omega), if_pos hne]
      have : max (SESSION_MAX_MS - (now - ts)) 0 = SESSION_MAX_MS - (now - ts) := by omega
      rw [this]
    · omega

/-- C9 witness: a timestamp `SESSION_MAX_MS + 1` in the past triggers the
immediate sign-out, and one 1000 ms in the past schedules the remaining
`SESSION_MAX_MS - 1000`. -/
theorem enforceExpiry_expiry_behavior_witness :
    enforceExpiry (SESSION_MAX_MS + 2) none (some 1) none
      = { user := none, storedTs := none, timerDelay := none }
    ∧ enforceExpiry 2000 none (some 1000) (some 7)
      = { user := some 7, storedTs := some 1000,
          timerDelay := some (SESSION_MAX_MS - 1000) } :=
  ⟨(enforceExpiry_expiry_behavior 1 (SESSION_MAX_MS + 2) none (by decide)).1 (by decide),
   ((enforceExpiry_expiry_behavior 1000 2000 (some 7) (by decide)).2 (by decide)).1⟩

/-- C10: `toggleFavorite x` flips the membership of exactly `x`, leaves
every other id's membership unchanged, applying it twice restores the set,
and the state-level toggle persists exactly the resulting set to storage. -/
theorem toggleFavorite_flips_membership (x : Nat) (S : List Nat) (hS : S.Nodup) :
    (x ∈ toggleFavorite x S ↔ x ∉ S)
    ∧ (∀ y, y ≠ x → (y ∈ toggleFavorite x S ↔ y ∈ S))
    ∧ (∀ y, y ∈ toggleFavorite x (toggleFavorite x S) ↔ y ∈ S)
    ∧ (∀ st : FavState, st.favorites = S →
        (toggleFavoriteState x st).storage = some (toggleFavoriteState x st).favorites) := by
  by_cases hx : x ∈ S
  · have h1 : toggleFavorite x S = S.erase x := by
      simp [toggleFavorite, hx]
    have h2 : toggleFavorite x (S.erase x) = S.erase x ++ [x] := by
      simp [toggleFavorite, hS.mem_erase_iff]
    refine ⟨?_, ?_, ?_, ?_⟩
    · simp [h1, hS.mem_erase_iff, hx]
    · intro y hy
      simp [h1, hS.mem_erase_iff, hy]
    · intro y
      rw [h1, h2]
      simp only [List.mem_append, hS.mem_erase_iff, List.mem_singleton]
      by_cases hxy : y = x
      · subst hxy
        simp [hx]
      · simp [hxy]
    · intro st _
      rfl
  · have h1 : toggleFavorite x S = S ++ [x] := by
      simp [toggleFavorite, hx]
    have h2 : toggleFavorite x (S ++ [x]) = S := by
      unfold toggleFavorite
      rw [if_pos (by simp), List.erase_append_right _ (by simpa using hx),
        List.erase_cons_head, List.append_nil]
    refine ⟨?_, ?_, ?_, ?_⟩
    · simp [h1, hx]
    · intro y hy
      simp [h1, hy]
    · intro y
      rw [h1, h2]
    · intro st _
      rfl

/-- C10 witness: toggling 2 out of `[1, 2]` removes it, leaves 1 alone,
and toggling twice restores membership. -/
theorem toggleFavorite_flips_membership_witness :
    (2 ∉ toggleFavorite 2 [1, 2])
    ∧ (1 ∈ toggleFavorite 2 [1, 2])
    ∧ (2 ∈ toggleFavorite 2 (toggleFavorite 2 [1, 2])) := by
  have h := toggleFavorite_flips_membership 2 [1, 2] (by decide)
  refine ⟨?_, ?_, ?_⟩
  · intro hmem
    exact h.1.mp hmem (by decide)
  · exact (h.2.1 1 (by decide)).mpr (by decide)
  · exact (h.2.2.1 2).mpr (by decide)

theorem lexLe_total : ∀ a b : List Char, lexLe a b = true ∨ lexLe b a = true := by
  intro a
  induction a with
  | nil => intro b; left; rfl
  | cons x xs ih =>
    intro b
    cases b with
    | nil => right; rfl
    | cons y ys =>
      by_cases hxy : x = y
      · subst hxy
        simp only [lexLe, if_pos rfl]
        exact ih ys
      · rcases lt_or_gt_of_ne hxy with h | h
        · left
          simp [lexLe, hxy, h]
        · right
          simp [lexLe, Ne.symm hxy, h]

theorem lexLe_trans : ∀ a b c : List Char,
    lexLe a b = true → lexLe b c = true → lexLe a c = true := by
  intro a
  induction a with
  | nil => intro b c _ _; rfl
  | cons x xs ih =>
    intro b c hab hbc
    cases b with
    | nil => simp [lexLe] at hab
    | cons y ys =>
      cases c with
      | nil => simp [lexLe] at hbc
      | cons z zs =>
        simp only [lexLe] at hab hbc ⊢
        by_cases hxy : x = y <;> by_cases hyz : y = z
        · subst hxy; subst hyz
          rw [if_pos rfl] at hab hbc ⊢
          exact ih _ _ hab hbc
        · subst hxy
          rw [if_pos rfl] at hab
          rw [if_neg hyz] at hbc ⊢
          exact hbc
        · subst hyz
          rw [if_pos rfl] at hbc
          rw [if_neg hxy] at hab ⊢
          exact hab
        · rw [if_neg hxy] at hab
          rw [if_neg hyz] at hbc
          have hxz : x < z := lt_trans (of_decide_eq_true hab) (of_decide_eq_true hbc)
          rw [if_neg (ne_of_lt hxz)]
          exact decide_eq_true hxz

theorem keyLe_total (k : SortKey) : ∀ a b : Book, keyLe k a b = true ∨ keyLe k b a = true := by
  intro a b
  cases k <;> simp only [keyLe] <;> apply lexLe_total

theorem keyLe_trans (k : SortKey) : ∀ a b c : Book,
    keyLe k a b = true → keyLe k b c = true → keyLe k a c = true := by
  intro a b c
  cases k with
  | recent =>
    intro h1 h2
    exact lexLe_trans _ _ _ h2 h1
  | title =>
    intro h1 h2
    exact lexLe_trans _ _ _ h1 h2
  | author =>
    intro h1 h2
    exact lexLe_trans _ _ _ h1 h2

theorem mem_insertLe (le : Book → Book → Bool) (a : Book) :
    ∀ l x, x ∈ insertLe le a l ↔ x = a ∨ x ∈ l := by
  intro l
  induction l with
  | nil => intro x; simp [insertLe]
  | cons b l ih =>
    intro x
    simp only [insertLe]
    split
    · simp [List.mem_cons]
    · simp only [List.mem_cons, ih]
      tauto

theorem pairwise_insertLe (le : Book → Book → Bool)
    (htot : ∀ a b, le a b = true ∨ le b a = true)
    (htrans : ∀ a b c, le a b = true → le b c = true → le a c = true)
    (a : Book) :
    ∀ l, l.Pairwise (fun x y => le x y = true) →
      (insertLe le a l).Pairwise (fun x y => le x y = true) := by
  intro l
  induction l with
  | nil => intro _; simp [insertLe]
  | cons b l ih =>
    intro hp
    rcases List.pairwise_cons.mp hp with ⟨hb, pl⟩
    simp only [insertLe]
    split
    · rename_i hab
      refine List.pairwise_cons.mpr ⟨?_, hp⟩
      intro x hx
      rcases List.mem_cons.mp hx with rfl | hx
      · exact hab
      · exact htrans _ _ _ hab (hb x hx)
    · rename_i hab
      refine List.pairwise_cons.mpr ⟨?_, ih pl⟩
      intro x hx
      rcases (mem_insertLe le a l x).mp hx with rfl | hx
      · rcases htot x b with h | h
        · exact absurd h hab
        · exact h
      · exact hb x hx

theorem sortLe_pairwise (le : Book → Book → Bool)
    (htot : ∀ a b, le a b = true ∨ le b a = true)
    (htrans : ∀ a b c, le a b = true → le b c = true → le a c = true) :
    ∀ l, (sortLe le l).Pairwise (fun x y => le x y = true) := by
  intro l
  induction l with
  | nil => simp [sortLe]
  | cons a l ih => exact pairwise_insertLe le htot htrans a _ ih

theorem insertLe_skip (le : Book → Book → Bool) (a : Book) :
    ∀ ys zs, (∀ b ∈ ys, le a b = false) →
      insertLe le a (ys ++ zs) = ys ++ insertLe le a zs := by
  intro ys
  induction ys with
  | nil => intro zs _; rfl
  | cons y ys ih =>
    intro zs h
    have hy : le a y = false := h y (by simp)
    have hih := ih zs (fun b hb => h b (by simp [hb]))
    simp only [List.cons_append, insertLe, hy]
    simp only [Bool.false_eq_true, if_false]
    rw [show insertLe le a (ys.append zs) = insertLe le a (ys ++ zs) from rfl, hih]

theorem insertLe_front (le : Book → Book → Bool) (a : Book) :
    ∀ l, (∀ b ∈ l, le a b = true) → insertLe le a l = a :: l := by
  intro l h
  cases l with
  | nil => rfl
  | cons b l =>
    simp only [insertLe]
    rw [if_pos (h b (by simp))]

theorem insertLe_congr (le₁ le₂ : Book → Book → Bool)
    (h : ∀ a b, le₁ a b = le₂ a b) (a : Book) :
    ∀ l, insertLe le₁ a l = insertLe le₂ a l := by
  intro l
  induction l with
  | nil => rfl
  | cons b l ih =>
    simp only [insertLe, h a b, ih]

theorem sortLe_congr (le₁ le₂ : Book → Book → Bool)
    (h : ∀ a b, le₁ a b = le₂ a b) :
    ∀ l, sortLe le₁ l = sortLe le₂ l := by
  intro l
  induction l with
  | nil => rfl
  | cons a l ih =>
    simp only [sortLe, ih, insertLe_congr le₁ le₂ h]

theorem favLe_eq (favorites : List Nat) (a b : Book) :
    favLe favorites a b = (!(favorites.contains b.id) || favorites.contains a.id) := by
  unfold favLe
  cases favorites.contains b.id <;> cases favorites.contains a.id <;> simp

theorem sortLe_bool_partition (P : Book → Bool) :
    ∀ l, sortLe (fun a b => !(P b) || P a) l
      = l.filter P ++ l.filter (fun x => !(P x)) := by
  intro l
  induction l with
  | nil => rfl
  | cons x l ih =>
    simp only [sortLe, ih]
    by_cases hPx : P x = true
    · rw [insertLe_front _ _ _ (fun b _ => by simp [hPx])]
      simp [List.filter_cons, hPx]
    · have hPx' : P x = false := by
        cases h : P x
        · rfl
        · exact absurd h hPx
      rw [insertLe_skip _ _ _ _ (fun b hb => by
        have : P b = true := (List.mem_filter.mp hb).2
        simp [this, hPx'])]
      rw [insertLe_front _ _ _ (fun b hb => by
        have : (!(P b)) = true := (List.mem_filter.mp hb).2
        simp at this
        simp [this])]
      simp [List.filter_cons, hPx']

/-- A page respects the budget `n`, or is an indivisible (whitespace-free)
chunk that alone exceeds the budget. -/
def okPage (n : Nat) (pg : List Char) : Prop :=
  pg.length ≤ n ∨ (n < pg.length ∧ ∀ c ∈ pg, isWs c = false)

theorem dropWhile_head_false (p : Char → Bool) :
    ∀ (l : List Char) (c : Char) (t : List Char),
      List.dropWhile p l = c :: t → p c = false := by
  intro l
  induction l with
  | nil => intro c t h; cases h
  | cons a l ih =>
    intro c t h
    by_cases ha : p a = true
    · rw [List.dropWhile_cons_of_pos ha] at h
      exact ih c t h
    · rw [List.dropWhile_cons_of_neg ha] at h
      cases h
      exact Bool.eq_false_iff.mpr ha

theorem wordSplitGo_nonws :
    ∀ (input curr : List Char) (inSep : Bool), (∀ c ∈ curr, isWs c = false) →
      ∀ piece ∈ wordSplitGo curr inSep input, ∀ c ∈ piece, isWs c = false := by
  intro input
  induction input with
  | nil =>
    intro curr inSep hcurr piece hp c hc
    cases inSep with
    | true =>
      rw [show wordSplitGo curr true [] = [curr.reverse, []] from rfl] at hp
      rcases List.mem_cons.mp hp with hp | hp
      · subst hp
        exact hcurr c (List.mem_reverse.mp hc)
      · rw [List.mem_singleton] at hp
        subst hp
        cases hc
    | false =>
      rw [show wordSplitGo curr false [] = [curr.reverse] from rfl] at hp
      rw [List.mem_singleton] at hp
      subst hp
      exact hcurr c (List.mem_reverse.mp hc)
  | cons c0 rest ih =>
    intro curr inSep
    by_cases h0 : isWs c0 = true
    · intro hcurr piece hp c hc
      rw [show wordSplitGo curr inSep (c0 :: rest) = wordSplitGo curr true rest by
        simp [wordSplitGo, h0]] at hp
      exact ih curr true hcurr piece hp c hc
    · have h0' : isWs c0 = false := Bool.eq_false_iff.mpr h0
      cases inSep with
      | true =>
        intro hcurr piece hp c hc
        rw [show wordSplitGo curr true (c0 :: rest)
            = curr.reverse :: wordSplitGo [c0] false rest by
          simp [wordSplitGo, h0']] at hp
        rcases List.mem_cons.mp hp with hp | hp
        · subst hp
          exact hcurr c (List.mem_reverse.mp hc)
        · exact ih [c0] false
            (by intro x hx; rw [List.mem_singleton] at hx; subst hx; exact h0')
            piece hp c hc
      | false =>
        intro hcurr piece hp c hc
        rw [show wordSplitGo curr false (c0 :: rest)
            = wordSplitGo (c0 :: curr) false rest by
          simp [wordSplitGo, h0']] at hp
        refine ih (c0 :: curr) false ?_ piece hp c hc
        intro x hx
        rcases List.mem_cons.mp hx with rfl | hx
        · exact h0'
        · exact hcurr x hx

theorem splitWs_nonws (p : List Char) :
    ∀ piece ∈ splitWsList p, ∀ c ∈ piece, isWs c = false :=
  wordSplitGo_nonws p [] false (by intro c hc; cases hc)

theorem wordLoop_ok (n : Nat) :
    ∀ (ws : List (List Char)) (chunk : List Char),
      (∀ w ∈ ws, ∀ c ∈ w, isWs c = false) → okPage n chunk →
      (∀ pg ∈ (wordLoop n ws chunk).1, okPage n pg) ∧ okPage n (wordLoop n ws chunk).2 := by
  intro ws
  induction ws with
  | nil =>
    intro chunk _ hchunk
    exact ⟨(by intro pg hpg; simp [wordLoop] at hpg), hchunk⟩
  | cons w ws ih =>
    intro chunk hws hchunk
    have hw : ∀ c ∈ w, isWs c = false := hws w (by simp)
    have hws' : ∀ w' ∈ ws, ∀ c ∈ w', isWs c = false :=
      fun w' hw' => hws w' (by simp [hw'])
    have hokw : okPage n w := by
      by_cases hlen : w.length ≤ n
      · exact Or.inl hlen
      · exact Or.inr ⟨Nat.lt_of_not_le hlen, hw⟩
    simp only [wordLoop]
    set next := if chunk.isEmpty then w else chunk ++ ' ' :: w with hnext
    by_cases hbig : n < next.length
    · rw [if_pos hbig]
      have hr := ih w hws' hokw
      refine ⟨?_, hr.2⟩
      intro pg hpg
      by_cases hce : chunk.isEmpty
      · rw [if_pos hce] at hpg
        exact hr.1 pg hpg
      · rw [if_neg hce] at hpg
        rcases List.mem_cons.mp hpg with rfl | hpg
        · exact hchunk
        · exact hr.1 pg hpg
    · rw [if_neg hbig]
      exact ih next hws' (Or.inl (Nat.le_of_not_lt hbig))

theorem paraStep_ok (n : Nat) (current p : List Char) (hcur : okPage n current) :
    (∀ pg ∈ (paraStep n current p).1, okPage n pg)
    ∧ okPage n (paraStep n current p).2 := by
  unfold paraStep
  set joined := if current.isEmpty then p else current ++ nl2 ++ p with hjoined
  by_cases hj : joined.length ≤ n
  · rw [if_pos hj]
    exact ⟨(by intro pg hpg; simp at hpg), Or.inl hj⟩
  · rw [if_neg hj]
    have hemit : ∀ pg ∈ (if current.isEmpty then ([] : List (List Char)) else [current]),
        okPage n pg := by
      intro pg hpg
      by_cases hce : current.isEmpty
      · rw [if_pos hce] at hpg
        cases hpg
      · rw [if_neg hce] at hpg
        rw [List.mem_singleton] at hpg
        subst hpg
        exact hcur
    by_cases hp : p.length ≤ n
    · rw [if_pos hp]
      exact ⟨hemit, Or.inl hp⟩
    · rw [if_neg hp]
      have hwr := wordLoop_ok n (splitWsList p) [] (splitWs_nonws p)
        (Or.inl (by simp))
      by_cases hwe : (wordLoop n (splitWsList p) []).2.isEmpty
      · rw [if_pos hwe]
        refine ⟨?_, Or.inl (by simp)⟩
        intro pg hpg
        rcases List.mem_append.mp hpg with hpg | hpg
        · exact hemit pg hpg
        · exact hwr.1 pg hpg
      · rw [if_neg hwe]
        refine ⟨?_, hwr.2⟩
        intro pg hpg
        simp only [List.isEmpty_nil, if_pos, List.append_nil] at hpg
        rcases List.mem_append.mp hpg with hpg | hpg
        · exact hemit pg hpg
        · exact hwr.1 pg hpg

theorem paraLoop_ok (n : Nat) :
    ∀ (ps : List (List Char)) (current : List Char), okPage n current →
      ∀ pg ∈ paraLoop n ps current, okPage n pg := by
  intro ps
  induction ps with
  | nil =>
    intro current hcur pg hpg
    simp only [paraLoop] at hpg
    by_cases hce : current.isEmpty
    · rw [if_pos hce] at hpg
      cases hpg
    · rw [if_neg hce] at hpg
      rw [List.mem_singleton] at hpg
      subst hpg
      exact hcur
  | cons p ps ih =>
    intro current hcur pg hpg
    simp only [paraLoop] at hpg
    have hstep := paraStep_ok n current p hcur
    rcases List.mem_append.mp hpg with hpg | hpg
    · exact hstep.1 pg hpg
    · exact ih _ hstep.2 pg hpg

theorem wordSplitGo_nonempty_of_curr :
    ∀ (input curr : List Char) (inSep : Bool), curr ≠ [] →
      ∃ piece ∈ wordSplitGo curr inSep input, piece ≠ [] := by
  intro input
  induction input with
  | nil =>
    intro curr inSep hcurr
    cases inSep with
    | true =>
      refine ⟨curr.reverse, ?_, by simpa using hcurr⟩
      rw [show wordSplitGo curr true [] = [curr.reverse, []] from rfl]
      simp
    | false =>
      refine ⟨curr.reverse, ?_, by simpa using hcurr⟩
      rw [show wordSplitGo curr false [] = [curr.reverse] from rfl]
      simp
  | cons c0 rest ih =>
    intro curr inSep hcurr
    by_cases h0 : isWs c0 = true
    · rw [show wordSplitGo curr inSep (c0 :: rest) = wordSplitGo curr true rest by
        simp [wordSplitGo, h0]]
      exact ih curr true hcurr
    · have h0' : isWs c0 = false := Bool.eq_false_iff.mpr h0
      cases inSep with
      | true =>
        rw [show wordSplitGo curr true (c0 :: rest)
            = curr.reverse :: wordSplitGo [c0] false rest by
          simp [wordSplitGo, h0']]
        exact ⟨curr.reverse, by simp, by simpa using hcurr⟩
      | false =>
        rw [show wordSplitGo curr false (c0 :: rest)
            = wordSplitGo (c0 :: curr) false rest by
          simp [wordSplitGo, h0']]
        exact ih (c0 :: curr) false (by simp)

theorem wordSplitGo_nonempty_of_mem :
    ∀ (input curr : List Char) (inSep : Bool) (c : Char), c ∈ input → isWs c = false →
      ∃ piece ∈ wordSplitGo curr inSep input, piece ≠ [] := by
  intro input
  induction input with
  | nil =>
    intro curr inSep c hc _
    cases hc
  | cons c0 rest ih =>
    intro curr inSep c hc hcw
    by_cases h0 : isWs c0 = true
    · have hcr : c ∈ rest := by
        rcases List.mem_cons.mp hc with rfl | h
        · rw [hcw] at h0
          cases h0
        · exact h
      rw [show wordSplitGo curr inSep (c0 :: rest) = wordSplitGo curr true rest by
        simp [wordSplitGo, h0]]
      exact ih curr true c hcr hcw
    · have h0' : isWs c0 = false := Bool.eq_false_iff.mpr h0
      cases inSep with
      | true =>
        rw [show wordSplitGo curr true (c0 :: rest)
            = curr.reverse :: wordSplitGo [c0] false rest by
          simp [wordSplitGo, h0']]
        rcases wordSplitGo_nonempty_of_curr rest [c0] false (by simp) with ⟨piece, hmem, hne⟩
        exact ⟨piece, by simp [hmem], hne⟩
      | false =>
        rw [show wordSplitGo curr false (c0 :: rest)
            = wordSplitGo (c0 :: curr) false rest by
          simp [wordSplitGo, h0']]
        exact wordSplitGo_nonempty_of_curr rest (c0 :: curr) false (by simp)

theorem wordLoop_progress (n : Nat) :
    ∀ (ws : List (List Char)) (chunk : List Char),
      (chunk ≠ [] ∨ ∃ w ∈ ws, w ≠ []) →
      (wordLoop n ws chunk).1 ≠ [] ∨ (wordLoop n ws chunk).2 ≠ [] := by
  intro ws
  induction ws with
  | nil =>
    intro chunk h
    rcases h with h | ⟨w, hw, _⟩
    · exact Or.inr h
    · cases hw
  | cons w ws ih =>
    intro chunk h
    simp only [wordLoop]
    set next := if chunk.isEmpty then w else chunk ++ ' ' :: w with hnext
    by_cases hbig : n < next.length
    · rw [if_pos hbig]
      by_cases hce : chunk.isEmpty
      · have hwne : w ≠ [] := by
          intro hw
          rw [hnext, if_pos hce, hw] at hbig
          simp at hbig
        rcases ih w (Or.inl hwne) with h1 | h2
        · left
          rw [if_pos hce]
          exact h1
        · exact Or.inr h2
      · left
        rw [if_neg hce]
        simp
    · rw [if_neg hbig]
      apply ih next
      by_cases hce : chunk.isEmpty
      · have hchunk : chunk = [] := by
          cases chunk
          · rfl
          · simp at hce
        by_cases hw : w = []
        · right
          rcases h with h | ⟨w', hw', hwne'⟩
          · exact absurd hchunk h
          · rcases List.mem_cons.mp hw' with rfl | hw'
            · exact absurd hw hwne'
            · exact ⟨w', hw', hwne'⟩
        · left
          rw [hnext, if_pos hce]
          exact hw
      · left
        rw [hnext, if_neg hce]
        simp

theorem paraSplitGo_nonws_mem :
    ∀ (input curr : List Char) (run : Nat) (c : Char),
      (c ∈ input ∨ c ∈ curr) → isWs c = false →
      ∃ p ∈ paraSplitGo curr run input, ∃ c2 ∈ p, isWs c2 = false := by
  intro input
  induction input with
  | nil =>
    intro curr run c hc hcw
    rcases hc with hc | hc
    · cases hc
    · simp only [paraSplitGo]
      by_cases hrun : 2 ≤ run
      · rw [if_pos hrun]
        exact ⟨curr.reverse, by simp, c, by simpa using hc, hcw⟩
      · rw [if_neg hrun]
        exact ⟨(List.replicate run '\n' ++ curr).reverse, by simp, c, by simp [hc], hcw⟩
  | cons c0 rest ih =>
    intro curr run c hc hcw
    by_cases h0 : c0 = '\n'
    · have hcr : c ∈ rest ∨ c ∈ curr := by
        rcases hc with hc | hc
        · rcases List.mem_cons.mp hc with rfl | h
          · rw [h0] at hcw
            cases hcw
          · exact Or.inl h
        · exact Or.inr hc
      rw [show paraSplitGo curr run (c0 :: rest) = paraSplitGo curr (run + 1) rest by
        simp [paraSplitGo, h0]]
      exact ih curr (run + 1) c hcr hcw
    · by_cases hrun : 2 ≤ run
      · rw [show paraSplitGo curr run (c0 :: rest)
            = curr.reverse :: paraSplitGo [c0] 0 rest by
          simp [paraSplitGo, h0, hrun]]
        rcases hc with hc | hc
        · rcases List.mem_cons.mp hc with rfl | h
          · rcases ih [c] 0 c (Or.inr (by simp)) hcw with ⟨p, hp, hwit⟩
            exact ⟨p, by simp [hp], hwit⟩
          · rcases ih [c0] 0 c (Or.inl h) hcw with ⟨p, hp, hwit⟩
            exact ⟨p, by simp [hp], hwit⟩
        · exact ⟨curr.reverse, by simp, c, by simpa using hc, hcw⟩
      · rw [show paraSplitGo curr run (c0 :: rest)
            = paraSplitGo (c0 :: (List.replicate run '\n' ++ curr)) 0 rest by
          simp [paraSplitGo, h0, hrun]]
        refine ih (c0 :: (List.replicate run '\n' ++ curr)) 0 c ?_ hcw
        rcases hc with hc | hc
        · rcases List.mem_cons.mp hc with rfl | h
          · exact Or.inr (by simp)
          · exact Or.inl h
        · exact Or.inr (by simp [hc])

theorem paraStep_nil_small (n : Nat) (p : List Char) (hp : p.length ≤ n) :
    paraStep n [] p = ([], p) := by
  simp [paraStep, hp]

theorem paraStep_nil_word (n : Nat) (p : List Char) (hp : ¬ p.length ≤ n) :
    paraStep n [] p = wordLoop n (splitWsList p) [] := by
  by_cases hwe : (wordLoop n (splitWsList p) []).2.isEmpty
  · have h2 : (wordLoop n (splitWsList p) []).2 = [] := by
      cases hw : (wordLoop n (splitWsList p) []).2
      · rfl
      · rw [hw] at hwe
        simp at hwe
    simp [paraStep, hp, hwe, h2]
    exact Prod.ext rfl h2.symm
  · simp [paraStep, hp, hwe]

theorem paraStep_progress (n : Nat) (current p : List Char)
    (h : current ≠ [] ∨ ∃ c ∈ p, isWs c = false) :
    (paraStep n current p).1 ≠ [] ∨ (paraStep n current p).2 ≠ [] := by
  by_cases hce : current.isEmpty
  · have hcur : current = [] := by
      cases current
      · rfl
      · simp at hce
    subst hcur
    rcases h with h | ⟨c, hc, hcw⟩
    · exact absurd rfl h
    · have hpne : p ≠ [] := by
        intro hp
        rw [hp] at hc
        cases hc
      by_cases hp : p.length ≤ n
      · rw [paraStep_nil_small n p hp]
        exact Or.inr hpne
      · rw [paraStep_nil_word n p hp]
        exact wordLoop_progress n (splitWsList p) []
          (Or.inr (wordSplitGo_nonempty_of_mem p [] false c hc hcw))
  · have hcef : current.isEmpty = false := Bool.eq_false_iff.mpr hce
    by_cases hj : current.length + (nl2.length + p.length) ≤ n
    · have hstep : paraStep n current p = ([], current ++ nl2 ++ p) := by
        simp [paraStep, hcef, hj]
      rw [hstep]
      right
      intro heq
      have hl := congrArg List.length heq
      simp [nl2] at hl
    · left
      by_cases hp : p.length ≤ n
      · have hstep : paraStep n current p = ([current], p) := by
          simp [paraStep, hcef, hj, hp]
        rw [hstep]
        simp
      · by_cases hwe : (wordLoop n (splitWsList p) []).2.isEmpty
        · have hstep : (paraStep n current p).1
              = current :: (wordLoop n (splitWsList p) []).1 := by
            simp [paraStep, hcef, hj, hp, hwe]
          rw [hstep]
          simp
        · have hstep : (paraStep n current p).1
              = current :: (wordLoop n (splitWsList p) []).1 := by
            simp [paraStep, hcef, hj, hp, hwe]
          rw [hstep]
          simp

theorem paraLoop_nonempty (n : Nat) :
    ∀ (ps : List (List Char)) (current : List Char),
      (current ≠ [] ∨ ∃ p ∈ ps, ∃ c ∈ p, isWs c = false) →
      paraLoop n ps current ≠ [] := by
  intro ps
  induction ps with
  | nil =>
    intro current h
    rcases h with h | ⟨p, hp, _⟩
    · cases current with
      | nil => exact absurd rfl h
      | cons a t => simp [paraLoop]
    · cases hp
  | cons p ps ih =>
    intro current h
    simp only [paraLoop]
    intro heq
    rw [List.append_eq_nil] at heq
    have hdone : (paraStep n current p).1 ≠ [] ∨ (paraStep n current p).2 ≠ [] →
        False := by
      intro hprog
      rcases hprog with h1 | h2
      · exact h1 heq.1
      · exact ih (paraStep n current p).2 (Or.inl h2) heq.2
    rcases h with hcur | ⟨p2, hp2, hwit⟩
    · exact hdone (paraStep_progress n current p (Or.inl hcur))
    · rcases List.mem_cons.mp hp2 with rfl | hp2
      · exact hdone (paraStep_progress n current p2 (Or.inr hwit))
      · exact ih (paraStep n current p).2 (Or.inr ⟨p2, hp2, hwit⟩) heq.2

/-- C1: for every content string and budget, `paginate` returns a
non-empty page sequence, and every page either fits the budget or is an
indivisible whitespace-free chunk (a single over-budget word) emitted as
its own oversized page. -/
theorem paginate_nonempty_and_within_budget (content : List Char) (n : Nat)
    (hn : 1 ≤ n) :
    paginate content n ≠ []
    ∧ ∀ pg ∈ paginate content n,
        pg.length ≤ n ∨ (n < pg.length ∧ ∀ c ∈ pg, isWs c = false) := by
  simp only [paginate]
  by_cases ht : (trimList content).isEmpty
  · rw [if_pos ht]
    refine ⟨by simp, ?_⟩
    intro pg hpg
    rw [List.mem_singleton] at hpg
    subst hpg
    exact Or.inl (by simp)
  · rw [if_neg ht]
    have htne : trimList content ≠ [] := by
      intro h0
      rw [h0] at ht
      exact ht rfl
    obtain ⟨c, t, hct⟩ := List.exists_cons_of_ne_nil htne
    have hct2 : List.dropWhile isWs (trimEnd content) = c :: t := hct
    have hcw : isWs c = false := dropWhile_head_false isWs _ c t hct2
    have hcmem : c ∈ trimList content := by
      rw [hct]
      exact List.mem_cons_self c t
    have hpara := paraSplitGo_nonws_mem (trimList content) [] 0 c (Or.inl hcmem) hcw
    have hpages : paraLoop n (splitParasList (trimList content)) [] ≠ [] :=
      paraLoop_nonempty n _ [] (Or.inr hpara)
    have hpef : (paraLoop n (splitParasList (trimList content)) []).isEmpty = false := by
      cases hpl : paraLoop n (splitParasList (trimList content)) [] with
      | nil => exact absurd hpl hpages
      | cons a l => rfl
    rw [if_neg (by simp [hpef])]
    exact ⟨hpages, fun pg hpg => paraLoop_ok n _ [] (Or.inl (by simp)) pg hpg⟩

/-- C1 witness: at content "hello world" and budget 5 the page list is
non-empty and every page fits or is an oversized single word. -/
theorem paginate_nonempty_and_within_budget_witness :
    paginate (sl "hello world") 5 ≠ []
    ∧ ∀ pg ∈ paginate (sl "hello world") 5,
        pg.length ≤ 5 ∨ (5 < pg.length ∧ ∀ c ∈ pg, isWs c = false) :=
  paginate_nonempty_and_within_budget (sl "hello world") 5 (by decide)

theorem trimStart_of_all_nonws (l : List Char) (h : ∀ c ∈ l, isWs c = false) :
    trimStart l = l := by
  cases l with
  | nil => rfl
  | cons c t =>
    exact List.dropWhile_cons_of_neg (by simp [h c (by simp)])

theorem trimEnd_of_all_nonws (l : List Char) (h : ∀ c ∈ l, isWs c = false) :
    trimEnd l = l := by
  unfold trimEnd
  rw [show List.dropWhile isWs l.reverse = trimStart l.reverse from rfl]
  rw [trimStart_of_all_nonws l.reverse (fun c hc => h c (List.mem_reverse.mp hc))]
  exact List.reverse_reverse l

theorem trimList_of_all_nonws (l : List Char) (h : ∀ c ∈ l, isWs c = false) :
    trimList l = l := by
  unfold trimList
  rw [trimEnd_of_all_nonws l h, trimStart_of_all_nonws l h]

theorem trimEnd_snoc_nonws (l : List Char) (c : Char) (hc : isWs c = false) :
    trimEnd (l ++ [c]) = l ++ [c] := by
  unfold trimEnd
  rw [List.reverse_append]
  simp only [List.reverse_cons, List.reverse_nil, List.nil_append, List.singleton_append]
  rw [List.dropWhile_cons_of_neg (by simp [hc])]
  simp

theorem trimList_of_ends (c d : Char) (m : List Char) (hc : isWs c = false)
    (hd : isWs d = false) :
    trimList (c :: (m ++ [d])) = c :: (m ++ [d]) := by
  unfold trimList
  rw [show (c :: (m ++ [d])) = (c :: m) ++ [d] from rfl]
  rw [trimEnd_snoc_nonws (c :: m) d hd]
  rw [show ((c :: m) ++ [d]) = c :: (m ++ [d]) from rfl]
  exact List.dropWhile_cons_of_neg (by simp [hc])

theorem paraSplitGo_no_nl (input : List Char) (h : ∀ c ∈ input, ¬ c = '\n') :
    ∀ curr, paraSplitGo curr 0 input = [(input.reverse ++ curr).reverse] := by
  induction input with
  | nil =>
    intro curr
    simp [paraSplitGo]
  | cons c0 rest ih =>
    intro curr
    have h0 : ¬ c0 = '\n' := h c0 (by simp)
    rw [show paraSplitGo curr 0 (c0 :: rest) = paraSplitGo (c0 :: curr) 0 rest by
      simp [paraSplitGo, h0]]
    rw [ih (fun c hc => h c (by simp [hc])) (c0 :: curr)]
    simp

theorem splitParas_no_nl (l : List Char) (h : ∀ c ∈ l, ¬ c = '\n') :
    splitParasList l = [l] := by
  unfold splitParasList
  rw [paraSplitGo_no_nl l h []]
  simp

theorem wordSplitGo_all_nonws (input : List Char) (h : ∀ c ∈ input, isWs c = false) :
    ∀ curr, wordSplitGo curr false input = [(input.reverse ++ curr).reverse] := by
  induction input with
  | nil =>
    intro curr
    simp [wordSplitGo]
  | cons c0 rest ih =>
    intro curr
    have h0 : isWs c0 = false := h c0 (by simp)
    rw [show wordSplitGo curr false (c0 :: rest) = wordSplitGo (c0 :: curr) false rest by
      simp [wordSplitGo, h0]]
    rw [ih (fun c hc => h c (by simp [hc])) (c0 :: curr)]
    simp

theorem splitWs_single_word (l : List Char) (h : ∀ c ∈ l, isWs c = false) :
    splitWsList l = [l] := by
  unfold splitWsList
  rw [wordSplitGo_all_nonws l h []]
  simp

theorem wordSplitGo_skip_word (w : List Char) (hw : ∀ c ∈ w, isWs c = false) :
    ∀ curr tail, wordSplitGo curr false (w ++ tail)
      = wordSplitGo (w.reverse ++ curr) false tail := by
  induction w with
  | nil =>
    intro curr tail
    simp
  | cons c0 w ih =>
    intro curr tail
    have h0 : isWs c0 = false := hw c0 (by simp)
    rw [show wordSplitGo curr false ((c0 :: w) ++ tail)
        = wordSplitGo (c0 :: curr) false (w ++ tail) by
      simp [wordSplitGo, h0]]
    rw [ih (fun c hc => hw c (by simp [hc])) (c0 :: curr) tail]
    simp

theorem wordSplitGo_space_cons (d : Char) (hd : isWs d = false) (rest : List Char) :
    ∀ curr, wordSplitGo curr false (' ' :: d :: rest)
      = curr.reverse :: wordSplitGo [d] false rest := by
  intro curr
  have hsp : isWs ' ' = true := by decide
  rw [show wordSplitGo curr false (' ' :: d :: rest) = wordSplitGo curr true (d :: rest) by
    simp [wordSplitGo, hsp]]
  simp [wordSplitGo, hd]

theorem rep_a_nonws (k : Nat) : ∀ c ∈ List.replicate k 'a', isWs c = false := by
  intro c hc
  rw [List.eq_of_mem_replicate hc]
  decide

theorem w1400_cons : w1400 = 'a' :: List.replicate 1399 'a' := by
  rw [w1400, show (1400 : Nat) = 1399 + 1 from rfl, List.replicate_succ]

theorem w198_cons : w198 = 'a' :: List.replicate 197 'a' := by
  rw [w198, show (198 : Nat) = 197 + 1 from rfl, List.replicate_succ]

theorem w1400_len : w1400.length = 1400 := by
  rw [w1400]
  exact List.length_replicate 1400 'a'

theorem w198_len : w198.length = 198 := by
  rw [w198]
  exact List.length_replicate 198 'a'

theorem w1400_nonws : ∀ c ∈ w1400, isWs c = false := by
  rw [w1400]
  exact rep_a_nonws 1400

theorem w198_nonws : ∀ c ∈ w198, isWs c = false := by
  rw [w198]
  exact rep_a_nonws 198

theorem wordSplitGo_space_word (w2 rest : List Char) (hw : w2 ≠ [])
    (hnw : ∀ c ∈ w2, isWs c = false) :
    ∀ curr, wordSplitGo curr false (' ' :: (w2 ++ rest))
      = curr.reverse :: wordSplitGo w2.reverse false rest := by
  intro curr
  cases w2 with
  | nil => exact absurd rfl hw
  | cons d w2t =>
    have hd : isWs d = false := hnw d (by simp)
    rw [show (' ' :: ((d :: w2t) ++ rest)) = ' ' :: d :: (w2t ++ rest) from rfl]
    rw [wordSplitGo_space_cons d hd]
    rw [wordSplitGo_skip_word w2t (fun c hc => hnw c (by simp [hc])) [d] rest]
    rw [show (w2t.reverse ++ [d]) = (d :: w2t).reverse by simp]

theorem splitWs_threePage : splitWsList threePage = [w1400, w1400, w198] := by
  unfold splitWsList threePage
  rw [wordSplitGo_skip_word w1400 w1400_nonws [] _]
  rw [wordSplitGo_space_word w1400 (' ' :: w198)
    (by rw [w1400_cons]; exact List.cons_ne_nil _ _) w1400_nonws]
  rw [show (' ' :: w198) = ' ' :: (w198 ++ []) by simp]
  rw [wordSplitGo_space_word w198 []
    (by rw [w198_cons]; exact List.cons_ne_nil _ _) w198_nonws]
  rw [show wordSplitGo w198.reverse false [] = [w198.reverse.reverse] from rfl]
  simp

theorem wordLoop_threePage :
    wordLoop 1400 [w1400, w1400, w198] [] = ([w1400, w1400], w198) := by
  have he14 : w1400.isEmpty = false := by
    rw [w1400_cons]
    rfl
  simp [wordLoop, he14, w1400_len, w198_len]

theorem threePage_mem (c : Char) (hc : c ∈ threePage) : c = 'a' ∨ c = ' ' := by
  rw [threePage] at hc
  rcases List.mem_append.mp hc with h | h
  · rw [w1400] at h
    exact Or.inl (List.eq_of_mem_replicate h)
  · rcases List.mem_cons.mp h with rfl | h
    · exact Or.inr rfl
    · rcases List.mem_append.mp h with h | h
      · rw [w1400] at h
        exact Or.inl (List.eq_of_mem_replicate h)
      · rcases List.mem_cons.mp h with rfl | h
        · exact Or.inr rfl
        · rw [w198] at h
          exact Or.inl (List.eq_of_mem_replicate h)

theorem threePage_no_nl : ∀ c ∈ threePage, ¬ c = '\n' := by
  intro c hc
  rcases threePage_mem c hc with rfl | rfl <;> decide

theorem threePage_len : threePage.length = 3000 := by
  rw [threePage]
  simp only [List.length_append, List.length_cons, w1400_len, w198_len]

theorem w198_snoc : w198 = List.replicate 197 'a' ++ ['a'] := by
  rw [w198, show (198 : Nat) = 197 + 1 from rfl, List.replicate_succ']

theorem threePage_snoc :
    threePage = (w1400 ++ (' ' :: (w1400 ++ (' ' :: List.replicate 197 'a')))) ++ ['a'] := by
  rw [threePage, w198_snoc]
  simp only [List.append_assoc, List.cons_append]

theorem threePage_cons :
    threePage = 'a' :: (List.replicate 1399 'a' ++ (' ' :: (w1400 ++ (' ' :: w198)))) := by
  rw [threePage, w1400_cons]
  rfl

theorem trimList_threePage : trimList threePage = threePage := by
  unfold trimList
  rw [threePage_snoc, trimEnd_snoc_nonws _ 'a' (by decide), ← threePage_snoc]
  rw [threePage_cons]
  exact List.dropWhile_cons_of_neg (by decide)

theorem paginate_threePage_eq : paginate threePage 1400 = [w1400, w1400, w198] := by
  simp only [paginate]
  rw [trimList_threePage]
  have hne : threePage.isEmpty = false := by
    rw [threePage_cons]
    rfl
  rw [hne]
  simp only [Bool.false_eq_true, if_false]
  rw [splitParas_no_nl threePage threePage_no_nl]
  have hstep : paraStep 1400 [] threePage = ([w1400, w1400], w198) := by
    rw [paraStep_nil_word 1400 threePage (by rw [threePage_len]; omega)]
    rw [splitWs_threePage]
    exact wordLoop_threePage
  have hloop : paraLoop 1400 [threePage] [] = [w1400, w1400, w198] := by
    simp only [paraLoop, hstep]
    have h198 : w198.isEmpty = false := by
      rw [w198_cons]
      rfl
    simp [paraLoop, h198]
  rw [hloop]
  rfl

/-- C2 counterexample: the 3000-character single-paragraph string made of
a single 3000-character word paginates (budget 1400) into exactly one
oversized page, not 3 pages, refuting the claim's universal
quantification over all 3000-character single-paragraph strings. -/
theorem paginate_3000_single_paragraph_cx :
    bigWord.length = 3000
    ∧ (∀ c ∈ bigWord, ¬ c = '\n')
    ∧ paginate bigWord 1400 = [bigWord]
    ∧ (paginate bigWord 1400).length ≠ 3
    ∧ ¬ (∀ pg ∈ paginate bigWord 1400, pg.length ≤ 1400) := by
  have hnonws : ∀ c ∈ bigWord, isWs c = false := by
    rw [bigWord]
    exact rep_a_nonws 3000
  have hlen : bigWord.length = 3000 := by
    rw [bigWord]
    exact List.length_replicate 3000 'a'
  have hbcons : bigWord = 'a' :: List.replicate 2999 'a' := by
    rw [bigWord, show (3000 : Nat) = 2999 + 1 from rfl, List.replicate_succ]
  have hne : bigWord.isEmpty = false := by
    rw [hbcons]
    rfl
  have heq : paginate bigWord 1400 = [bigWord] := by
    simp only [paginate]
    rw [trimList_of_all_nonws bigWord hnonws]
    rw [hne]
    simp only [Bool.false_eq_true, if_false]
    rw [splitParas_no_nl bigWord (by
      intro c hc
      rw [bigWord] at hc
      rw [List.eq_of_mem_replicate hc]
      decide)]
    have hstep : paraStep 1400 [] bigWord = ([], bigWord) := by
      rw [paraStep_nil_word 1400 bigWord (by rw [hlen]; omega)]
      rw [splitWs_single_word bigWord hnonws]
      have hbig : 1400 < bigWord.length := by rw [hlen]; omega
      simp [wordLoop, hbig]
    have hloop : paraLoop 1400 [bigWord] [] = [bigWord] := by
      simp only [paraLoop, hstep]
      simp [paraLoop, hne]
    rw [hloop]
    rfl
  refine ⟨hlen, ?_, heq, ?_, ?_⟩
  · intro c hc
    have := hnonws c hc
    intro hcn
    rw [hcn] at this
    cases this
  · rw [heq]
    simp
  · intro hall
    have := hall bigWord (by rw [heq]; simp)
    rw [hlen] at this
    omega

/-- C2 (amended): there is a 3000-character single-paragraph content
string — three space-separated word blocks of 1400, 1400 and 198
characters — that `paginate` (budget 1400) splits on word boundaries into
exactly 3 pages, each within 1400 characters, whose concatenation with
single spaces reinserted reproduces the original text; but this does not
hold of *every* 3000-character single-paragraph string. -/
theorem paginate_3000_three_pages :
    threePage.length = 3000
    ∧ (∀ c ∈ threePage, ¬ c = '\n')
    ∧ paginate threePage 1400 = [w1400, w1400, w198]
    ∧ (paginate threePage 1400).length = 3
    ∧ (∀ pg ∈ paginate threePage 1400, pg.length ≤ 1400)
    ∧ joinWithSpace (paginate threePage 1400) = threePage := by
  refine ⟨threePage_len, threePage_no_nl, paginate_threePage_eq, ?_, ?_, ?_⟩
  · rw [paginate_threePage_eq]
    rfl
  · intro pg hpg
    rw [paginate_threePage_eq] at hpg
    have hl14 : w1400.length = 1400 := w1400_len
    have hl198 : w198.length = 198 := w198_len
    rcases List.mem_cons.mp hpg with rfl | hpg
    · omega
    · rcases List.mem_cons.mp hpg with rfl | hpg
      · omega
      · rw [List.mem_singleton] at hpg
        subst hpg
        omega
  · rw [paginate_threePage_eq]
    rfl

theorem dropWhile_idem (p : Char → Bool) (l : List Char) :
    (l.dropWhile p).dropWhile p = l.dropWhile p := by
  cases h : l.dropWhile p with
  | nil => rfl
  | cons c t =>
    exact List.dropWhile_cons_of_neg (by simp [dropWhile_head_false p l c t h])

theorem stripGenreTag_trimStart (text : List Char) :
    List.dropWhile isWs (stripGenreTag text) = stripGenreTag text :=
  dropWhile_idem isWs (stripLeadWsNl (replaceFirstTag text))

theorem trimEnd_append_of_ne_nil (a b : List Char) (hb : trimEnd b ≠ []) :
    trimEnd (a ++ b) = a ++ trimEnd b := by
  unfold trimEnd
  rw [List.reverse_append, List.dropWhile_append]
  have hbe : (b.reverse.dropWhile isWs).isEmpty = false := by
    cases h : b.reverse.dropWhile isWs with
    | nil =>
      exfalso
      apply hb
      unfold trimEnd
      rw [h]
      rfl
    | cons x xs => rfl
  rw [hbe]
  simp

theorem trimEnd_cons_head (c : Char) (t : List Char) (hc : isWs c = false) :
    ∃ t2, trimEnd (c :: t) = c :: t2 := by
  unfold trimEnd
  rw [show (c :: t).reverse = t.reverse ++ [c] by simp, List.dropWhile_append]
  by_cases hd : (t.reverse.dropWhile isWs).isEmpty
  · rw [if_pos hd]
    rw [List.dropWhile_cons_of_neg (by simp [hc])]
    exact ⟨[], by simp⟩
  · rw [if_neg hd]
    exact ⟨(t.reverse.dropWhile isWs).reverse, by simp⟩

theorem tagMatchAt_tag (name r : List Char) (hn : name ≠ [])
    (halpha : ∀ c ∈ name, c.isAlpha = true) (hnonws : ∀ c ∈ name, isWs c = false) :
    tagMatchAt ('[' :: 'g' :: 'e' :: 'n' :: 'r' :: 'e' :: ':' :: ' '
        :: (name ++ (']' :: r)))
      = some (name, r) := by
  cases name with
  | nil => exact absurd rfl hn
  | cons n0 nt =>
    have h0w : isWs n0 = false := hnonws n0 (by simp)
    have h0a : n0.isAlpha = true := halpha n0 (by simp)
    have hta : ∀ a ∈ nt, Char.isAlpha a = true := fun a ha => halpha a (by simp [ha])
    have hr2 : List.dropWhile isWs (' ' :: n0 :: (nt ++ (']' :: r)))
        = n0 :: (nt ++ (']' :: r)) := by
      rw [List.dropWhile_cons_of_pos (by decide)]
      rw [List.dropWhile_cons_of_neg (by simp [h0w])]
    have htk : List.takeWhile Char.isAlpha (n0 :: (nt ++ (']' :: r))) = n0 :: nt := by
      rw [List.takeWhile_cons_of_pos (by simp [h0a])]
      rw [List.takeWhile_append_of_pos (fun a ha => hta a ha)]
      rw [List.takeWhile_cons_of_neg (by decide)]
      simp
    have hdp : List.dropWhile Char.isAlpha (n0 :: (nt ++ (']' :: r))) = ']' :: r := by
      rw [List.dropWhile_cons_of_pos (by simp [h0a])]
      rw [List.dropWhile_append_of_pos (fun a ha => hta a ha)]
      rw [List.dropWhile_cons_of_neg (by decide)]
    unfold tagMatchAt
    rw [show matchPrefixCI tagLit
        ('[' :: 'g' :: 'e' :: 'n' :: 'r' :: 'e' :: ':' :: ' '
          :: ((n0 :: nt) ++ (']' :: r)))
        = some (' ' :: ((n0 :: nt) ++ (']' :: r))) from rfl]
    simp only [List.cons_append, hr2, htk, hdp]
    rfl

theorem replaceFirstTag_tag (name r : List Char) (hn : name ≠ [])
    (halpha : ∀ c ∈ name, c.isAlpha = true) (hnonws : ∀ c ∈ name, isWs c = false) :
    replaceFirstTag ('[' :: 'g' :: 'e' :: 'n' :: 'r' :: 'e' :: ':' :: ' '
        :: (name ++ (']' :: r)))
      = r := by
  rw [show replaceFirstTag ('[' :: 'g' :: 'e' :: 'n' :: 'r' :: 'e' :: ':' :: ' '
        :: (name ++ (']' :: r)))
      = (match tagMatchAt ('[' :: 'g' :: 'e' :: 'n' :: 'r' :: 'e' :: ':' :: ' '
          :: (name ++ (']' :: r))) with
        | some (_, rest) => rest
        | none => '[' :: replaceFirstTag ('g' :: 'e' :: 'n' :: 'r' :: 'e' :: ':' :: ' '
            :: (name ++ (']' :: r)))) from rfl]
  rw [tagMatchAt_tag name r hn halpha hnonws]

theorem stripLeadWsNl_nl (d : List Char) (hd : List.dropWhile isWs d = d) :
    stripLeadWsNl ('\n' :: d) = d := by
  have htw : List.takeWhile isWs d = [] := by
    cases h : d with
    | nil => rfl
    | cons c t =>
      have : isWs c = false := dropWhile_head_false isWs d c t (by rw [h] at hd ⊢; exact hd)
      exact List.takeWhile_cons_of_neg (by simp [this])
  unfold stripLeadWsNl
  rw [List.takeWhile_cons_of_pos (by decide), htw]
  rw [if_pos (by decide)]
  rw [List.dropWhile_cons_of_pos (by decide), hd]
  rfl

theorem stripGenreTag_tagged_head (name d : List Char) (hn : name ≠ [])
    (halpha : ∀ c ∈ name, c.isAlpha = true) (hnonws : ∀ c ∈ name, isWs c = false)
    (hd : List.dropWhile isWs d = d) :
    stripGenreTag ('[' :: 'g' :: 'e' :: 'n' :: 'r' :: 'e' :: ':' :: ' '
        :: (name ++ (']' :: '\n' :: d)))
      = d := by
  unfold stripGenreTag
  rw [show (']' :: '\n' :: d) = ']' :: ('\n' :: d) from rfl]
  rw [replaceFirstTag_tag name ('\n' :: d) hn halpha hnonws]
  rw [stripLeadWsNl_nl d hd]
  exact hd

/-- C3 (amended): for every non-catch-all genre, applying the genre tag
and stripping it returns `stripGenreTag` of the original text with
trailing whitespace normalized (for tag-free input this is the original
text trimmed of both leading and trailing whitespace, not only trailing);
and for the catch-all `Misc`, `applyGenreTag` adds no tag, returning the
stripped text with trailing whitespace normalized. -/
theorem applyGenreTag_strip_roundtrip (text : List Char) (g : Genre)
    (hm : g ≠ Genre.Misc) (ha : g ≠ Genre.All) :
    stripGenreTag (applyGenreTag text g) = trimEnd (stripGenreTag text)
    ∧ applyGenreTag text Genre.Misc = trimEnd (stripGenreTag text) := by
  constructor
  · unfold applyGenreTag
    rw [if_neg hm]
    have hclean := stripGenreTag_trimStart text
    cases hcl : stripGenreTag text with
    | nil =>
      show stripGenreTag (trimEnd ((sl "[genre: " ++ genreName g ++ sl "]\n") ++ []))
        = trimEnd []
      rw [List.append_nil]
      cases g
      case All => exact absurd rfl ha
      case Misc => exact absurd rfl hm
      all_goals decide
    | cons c t =>
      rw [hcl] at hclean
      have hcw : isWs c = false := dropWhile_head_false isWs (c :: t) c t hclean
      obtain ⟨t2, ht2⟩ := trimEnd_cons_head c t hcw
      have htne : trimEnd (c :: t) ≠ [] := by
        rw [ht2]
        exact List.cons_ne_nil _ _
      show stripGenreTag (trimEnd ((sl "[genre: " ++ genreName g ++ sl "]\n") ++ (c :: t)))
        = trimEnd (c :: t)
      rw [trimEnd_append_of_ne_nil _ _ htne, ht2]
      have hd2 : List.dropWhile isWs (c :: t2) = c :: t2 :=
        List.dropWhile_cons_of_neg (by simp [hcw])
      cases g
      case All => exact absurd rfl ha
      case Misc => exact absurd rfl hm
      case Adventure =>
        exact stripGenreTag_tagged_head (sl "Adventure") (c :: t2)
          (by decide) (by decide) (by decide) hd2
      case Fantasy =>
        exact stripGenreTag_tagged_head (sl "Fantasy") (c :: t2)
          (by decide) (by decide) (by decide) hd2
      case History =>
        exact stripGenreTag_tagged_head (sl "History") (c :: t2)
          (by decide) (by decide) (by decide) hd2
      case Science =>
        exact stripGenreTag_tagged_head (sl "Science") (c :: t2)
          (by decide) (by decide) (by decide) hd2
      case Mystery =>
        exact stripGenreTag_tagged_head (sl "Mystery") (c :: t2)
          (by decide) (by decide) (by decide) hd2
      case Horror =>
        exact stripGenreTag_tagged_head (sl "Horror") (c :: t2)
          (by decide) (by decide) (by decide) hd2
      case Poetry =>
        exact stripGenreTag_tagged_head (sl "Poetry") (c :: t2)
          (by decide) (by decide) (by decide) hd2
      case Biography =>
        exact stripGenreTag_tagged_head (sl "Biography") (c :: t2)
          (by decide) (by decide) (by decide) hd2
  · unfold applyGenreTag
    rw [if_pos rfl]
    show trimEnd (([] : List Char) ++ stripGenreTag text) = trimEnd (stripGenreTag text)
    rw [List.nil_append]

/-- C3 witness: round-tripping "hello " through the Fantasy tag returns
the trailing-trimmed stripped text, and `Misc` adds no tag. -/
theorem applyGenreTag_strip_roundtrip_witness :
    stripGenreTag (applyGenreTag (sl "hello ") Genre.Fantasy)
      = trimEnd (stripGenreTag (sl "hello "))
    ∧ applyGenreTag (sl "hello ") Genre.Misc = trimEnd (stripGenreTag (sl "hello ")) :=
  applyGenreTag_strip_roundtrip (sl "hello ") Genre.Fantasy (by decide) (by decide)

/-- C3 counterexample: the claim as stated promises the original text with
only trailing whitespace normalized, but the round trip also strips
leading whitespace: for the text " a" (leading space, no tag) the round
trip yields "a", not " a". -/
theorem applyGenreTag_strip_claim_cx :
    stripGenreTag (applyGenreTag (sl " a") Genre.Fantasy) = sl "a"
    ∧ trimEnd (sl " a") = sl " a"
    ∧ stripGenreTag (applyGenreTag (sl " a") Genre.Fantasy) ≠ trimEnd (sl " a") := by
  decide

/-- C5: `formattedBooks` first sorts by the chosen key (the key-sorted
list is ordered under `keyLe`), then stably partitions it so that every
favorited document precedes every non-favorited one with the key order
preserved inside each group (the result is exactly the favorited part of
the key-sorted list followed by its non-favorited part); in particular,
favorite A ("Zeta") is listed before non-favorite B ("Alpha") under
title-ascending sort. -/
theorem formattedBooks_pins_favorites (favorites : List Nat) (k : SortKey)
    (books : List Book) :
    (formattedBooks favorites k books
      = (sortLe (keyLe k) books).filter (fun b => favorites.contains b.id)
        ++ (sortLe (keyLe k) books).filter (fun b => !(favorites.contains b.id)))
    ∧ (sortLe (keyLe k) books).Pairwise (fun a b => keyLe k a b = true)
    ∧ formattedBooks [1] SortKey.title
        [Book.mk 1 (sl "Zeta") (sl "x") (sl "fantasy") (sl "") (sl "2024"),
         Book.mk 2 (sl "Alpha") (sl "y") (sl "fantasy") (sl "") (sl "2024")]
      = [Book.mk 1 (sl "Zeta") (sl "x") (sl "fantasy") (sl "") (sl "2024"),
         Book.mk 2 (sl "Alpha") (sl "y") (sl "fantasy") (sl "") (sl "2024")] := by
  refine ⟨?_, ?_, ?_⟩
  · unfold formattedBooks
    rw [sortLe_congr (favLe favorites)
        (fun a b => !(favorites.contains b.id) || favorites.contains a.id)
        (favLe_eq favorites)]
    exact sortLe_bool_partition (fun b => favorites.contains b.id) _
  · exact sortLe_pairwise (keyLe k) (keyLe_total k) (keyLe_trans k) books
  · decide

/-- C6 (amended): `filteredBooks` keeps a document iff favorites-only is
off or the id is favorited, AND the selected genre is the wildcard or
equals the derived genre, AND the query is empty *after whitespace
trimming* or the trimmed lower-cased query occurs case-insensitively in
the newline-separated concatenation of title, author, summary, content. -/
theorem filteredBooks_keeps_iff (books : List Book) (favorites : List Nat)
    (onlyFavorites : Bool) (g : Genre) (query : List Char) :
    filteredBooks books favorites onlyFavorites g query
      = books.filter (fun b =>
          (!onlyFavorites || favorites.contains b.id)
          && (decide (g = Genre.All) || decide (deriveGenre b.summary b.content_md = g))
          && ((trimList (query.map Char.toLower)).isEmpty
              || hasSubstr (trimList (query.map Char.toLower)) (bookHay b))) := by
  unfold filteredBooks
  apply List.filter_congr
  intro b _
  unfold keepBook
  cases onlyFavorites <;>
    cases hc : favorites.contains b.id <;>
      cases hq : (trimList (query.map Char.toLower)).isEmpty <;>
        simp [hc, hq]

/-- C6 counterexample: the claim reads "the query is empty, or a substring
match occurs", but the source trims the query first.  A query of a single
space is non-empty and matches no field of the book below, yet the book is
kept, refuting the claim as stated. -/
theorem filteredBooks_claim_cx :
    filteredBooks [Book.mk 1 (sl "t") (sl "a") (sl "s") (sl "c") (sl "2020")]
        [] false Genre.All (sl " ")
      = [Book.mk 1 (sl "t") (sl "a") (sl "s") (sl "c") (sl "2020")]
    ∧ List.filter (keepBookClaim false [] Genre.All (sl " "))
        [Book.mk 1 (sl "t") (sl "a") (sl "s") (sl "c") (sl "2020")]
      = [] := by
  decide
